import Mathlib

/-!
Shallow embedding of the CAM dashboard's event-reconciliation core
(`src/ui/dashboard/src/App.tsx`, `src/ui/dashboard/src/lib/api.ts` and the
timeline component): the event data model, the historical/live merge, the
exchange grouper, the playback controller, the filter and metrics layer,
the reveal gate and the stream buffer, together with theorems settling the
specification claims about them.

Timestamps (`created_at`) are modelled as natural numbers: the code orders
events by `new Date(created_at).getTime()`, and the composite dedup key
`event_type|exchange_id|created_at` is modelled as the corresponding triple.
-/

namespace CamAgent

/-- The five raw event kinds of `types/events.ts` (`TimelineEventType`). -/
inductive EventKind
  | userPrompt
  | llmResponse
  | judgeVerdict
  | metricSnapshot
  | auditRecord
deriving DecidableEq

/-- `EventSource` of `types/events.ts` (model/provider description). -/
structure SourceInfo where
  modelId : String
  provider : String
  mode : Option String
deriving DecidableEq

/-- `ViolationDetail` of `types/events.ts`; severity is kept as the raw
string, as the code never restricts it beyond a default. -/
structure ViolationDetail where
  category : String
  severity : String
  violationType : Option String
  clauseReference : Option String
  description : Option String
deriving DecidableEq

/-- `RunMetadata` of `types/events.ts`. -/
structure RunMetadata where
  runId : String
  scenarioId : Option String
  startedAt : Nat
  tags : List (String × String)
deriving DecidableEq

/-- `UserPromptPayload` of `types/events.ts`. -/
structure UserPromptPayload where
  source : SourceInfo
  promptText : String
  promptRedacted : Option String
  questionCategory : Option String
deriving DecidableEq

/-- `LLMResponsePayload` of `types/events.ts`. -/
structure LLMResponsePayload where
  source : SourceInfo
  questionCategory : Option String
  promptPreview : Option String
  completionPreview : Option String
  latencyMs : Option Nat
  tokenUsage : List (String × Nat)
  contextTokens : Option Nat
  piiRedactedText : String
  piiRawText : Option String
  piiFields : Option (List String)
deriving DecidableEq

/-- `JudgeVerdictPayload` of `types/events.ts`; the verdict is kept as the
raw string (`toTimelineEvent` casts whatever string arrives). -/
structure JudgeVerdictPayload where
  source : SourceInfo
  verdict : String
  score : Option Int
  rationaleRedacted : Option String
  rationaleRaw : Option String
  violation : Option ViolationDetail
  latencyMs : Option Nat
deriving DecidableEq

/-- An event's payload, tagged by kind.  The adapter (`toTimelineEvent`)
only ever produces the `llmResponse` and `judgeVerdict` shapes. -/
inductive EventPayload
  | userPrompt (p : UserPromptPayload)
  | llmResponse (p : LLMResponsePayload)
  | judgeVerdict (p : JudgeVerdictPayload)
  | metricSnapshot
  | auditRecord
deriving DecidableEq

/-- The kind tag of a payload. -/
def EventPayload.kind : EventPayload → EventKind
  | .userPrompt _ => .userPrompt
  | .llmResponse _ => .llmResponse
  | .judgeVerdict _ => .judgeVerdict
  | .metricSnapshot => .metricSnapshot
  | .auditRecord => .auditRecord

/-- `TimelineEvent` of `types/events.ts`. -/
structure TimelineEvent where
  run : RunMetadata
  exchangeId : String
  turnIndex : Nat
  payload : EventPayload
  createdAt : Nat
deriving DecidableEq

/-- The `event_type` field (derived from the payload tag). -/
def TimelineEvent.eventType (e : TimelineEvent) : EventKind := e.payload.kind

/-! ## Reconciliation buffer (`combinedEvents` / `orderedEvents` in App.tsx) -/

/-- The composite dedup key `event_type|exchange_id|created_at`. -/
abbrev EventKey := EventKind × String × Nat

/-- Key of one event. -/
def eventKey (e : TimelineEvent) : EventKey := (e.eventType, e.exchangeId, e.createdAt)

/-- The `push` loop of `combinedEvents`: walk the list, keeping an event
only if its key has not been seen. -/
def dedupGo (seen : List EventKey) : List TimelineEvent → List TimelineEvent
  | [] => []
  | e :: rest =>
    if eventKey e ∈ seen then dedupGo seen rest
    else e :: dedupGo (eventKey e :: seen) rest

/-- `combinedEvents`: historical (fetched) events are pushed first, then the
live stream events, deduplicated by key. -/
def combinedEvents (fetched streamEvs : List TimelineEvent) : List TimelineEvent :=
  dedupGo [] (fetched ++ streamEvs)

/-- Stable insertion by `createdAt`: the new element goes in front of the
first element with an equal-or-later timestamp, so an element inserted for
an earlier input position stays in front of equal timestamps. -/
def insertByCreatedAt (e : TimelineEvent) : List TimelineEvent → List TimelineEvent
  | [] => [e]
  | x :: xs => if e.createdAt ≤ x.createdAt then e :: x :: xs else x :: insertByCreatedAt e xs

/-- Stable ascending sort by `createdAt`.  `Array.prototype.sort` with the
comparator `getTime(a) - getTime(b)` is a stable sort for this total
preorder, and the stably sorted permutation of a list is unique, so this
insertion sort computes the same list as `orderedEvents` in App.tsx. -/
def sortByCreatedAt (l : List TimelineEvent) : List TimelineEvent :=
  l.foldr insertByCreatedAt []

/-- `orderedEvents`: the reconciled sequence, sorted by `createdAt`. -/
def orderedEvents (fetched streamEvs : List TimelineEvent) : List TimelineEvent :=
  sortByCreatedAt (combinedEvents fetched streamEvs)

/-! ## Exchange grouper (`groups` in the Timeline component) -/

/-- `TurnGroup` of the Timeline component: one grouped exchange. -/
structure TurnGroup where
  exchangeId : String
  turnIndex : Nat
  createdAt : Nat
  run : RunMetadata
  userPrompt : Option UserPromptPayload
  response : Option LLMResponsePayload
  judges : List JudgeVerdictPayload
deriving DecidableEq

/-- The entry created on first sight of an `exchange_id`. -/
def newGroup (e : TimelineEvent) : TurnGroup :=
  { exchangeId := e.exchangeId, turnIndex := e.turnIndex, createdAt := e.createdAt,
    run := e.run, userPrompt := none, response := none, judges := [] }

/-- The per-event mutation of an entry: `entry.createdAt = event.created_at`,
then a prompt sets `userPrompt`, a response sets `response`, and a verdict
is appended to `judges`. -/
def applyEvent (g : TurnGroup) (e : TimelineEvent) : TurnGroup :=
  let g' := { g with createdAt := e.createdAt }
  match e.payload with
  | .userPrompt p => { g' with userPrompt := some p }
  | .llmResponse p => { g' with response := some p }
  | .judgeVerdict p => { g' with judges := g'.judges ++ [p] }
  | .metricSnapshot => g'
  | .auditRecord => g'

/-- One step of the grouping fold: mutate the existing entry for the
event's `exchange_id`, or create and append a fresh one. -/
def groupStep (acc : List TurnGroup) (e : TimelineEvent) : List TurnGroup :=
  if acc.any (fun g => g.exchangeId == e.exchangeId) then
    acc.map (fun g => if g.exchangeId == e.exchangeId then applyEvent g e else g)
  else acc ++ [applyEvent (newGroup e) e]

/-- The grouper: fold all events into per-exchange groups, in first-seen
order of `exchange_id`. -/
def groups (events : List TimelineEvent) : List TurnGroup :=
  events.foldl groupStep []

/-- First occurrence of each value, in order, skipping values in `seen`:
the reference description of "first-seen order". -/
def firstSeenGo (seen : List String) : List String → List String
  | [] => []
  | x :: xs => if x ∈ seen then firstSeenGo seen xs else x :: firstSeenGo (x :: seen) xs

/-- Lookup of the group for an `exchange_id`. -/
def findGroup (acc : List TurnGroup) (id : String) : Option TurnGroup :=
  acc.find? (fun g => g.exchangeId == id)

/-- The verdict payload of a verdict event. -/
def verdictOf (e : TimelineEvent) : Option JudgeVerdictPayload :=
  match e.payload with
  | .judgeVerdict p => some p
  | _ => none

/-- The response payload of a response event. -/
def responseOf (e : TimelineEvent) : Option LLMResponsePayload :=
  match e.payload with
  | .llmResponse p => some p
  | _ => none

/-- The prompt payload of a prompt event. -/
def promptOf (e : TimelineEvent) : Option UserPromptPayload :=
  match e.payload with
  | .userPrompt p => some p
  | _ => none

/-- All events of one exchange, in input order. -/
def constituents (events : List TimelineEvent) (id : String) : List TimelineEvent :=
  events.filter (fun e => e.exchangeId == id)

/-! ## Playback controller (App.tsx handlers) -/

/-- The playback state the handlers touch. -/
structure PlaybackState where
  index : Int
  playing : Bool
  showAll : Bool
deriving DecidableEq

/-- `handleStepForward`: no-op on an empty sequence, else stop playing,
leave show-all, and move to `min(index+1, length-1)`. -/
def handleStepForward (len : Nat) (s : PlaybackState) : PlaybackState :=
  if len = 0 then s
  else { index := min (s.index + 1) ((len : Int) - 1), playing := false, showAll := false }

/-- `handleStepBack`: no-op on an empty sequence, else stop playing and
move to `max(index-1, -1)`. -/
def handleStepBack (len : Nat) (s : PlaybackState) : PlaybackState :=
  if len = 0 then s
  else { index := max (s.index - 1) (-1), playing := false, showAll := false }

/-- `handleScrub`: no-op on an empty sequence, else stop playing and move
to `min(max(i, 0), length-1)`. -/
def handleScrub (len : Nat) (i : Int) (s : PlaybackState) : PlaybackState :=
  if len = 0 then s
  else { index := min (max i 0) ((len : Int) - 1), playing := false, showAll := false }

/-- The operations claim C3 quantifies over. -/
inductive PlaybackOp
  | stepForward
  | stepBack
  | scrub (i : Int)

/-- Apply one playback operation. -/
def applyOp (len : Nat) (s : PlaybackState) : PlaybackOp → PlaybackState
  | .stepForward => handleStepForward len s
  | .stepBack => handleStepBack len s
  | .scrub i => handleScrub len i s

/-- Apply a finite sequence of playback operations. -/
def applyOps (len : Nat) (s : PlaybackState) (ops : List PlaybackOp) : PlaybackState :=
  ops.foldl (applyOp len) s

/-- The clamp effect of App.tsx (lines 377-389): when the filtered sequence
is empty force index -1 and stop playing; otherwise a negative index is
reset to `length-1` and a non-negative one clamped to `min(index, length-1)`. -/
def clampIndexEffect (len : Nat) (s : PlaybackState) : PlaybackState :=
  if len = 0 then { s with index := -1, playing := false }
  else { s with index := if s.index < 0 then (len : Int) - 1 else min s.index ((len : Int) - 1) }

/-! ## Metrics (the `metrics` memo of App.tsx) -/

/-- Whether an event is a judge verdict. -/
def isJudgeVerdict (e : TimelineEvent) : Bool :=
  match e.payload with
  | .judgeVerdict _ => true
  | _ => false

/-- The verdict string of a verdict event. -/
def verdictString (e : TimelineEvent) : Option String :=
  (verdictOf e).map (fun p => p.verdict)

/-- Number of `allow` verdicts in the window. -/
def allowCount (evs : List TimelineEvent) : Nat :=
  evs.countP (fun e => verdictString e == some "allow")

/-- Number of `warn` verdicts in the window. -/
def warnCount (evs : List TimelineEvent) : Nat :=
  evs.countP (fun e => verdictString e == some "warn")

/-- Number of `block` verdicts in the window. -/
def blockCount (evs : List TimelineEvent) : Nat :=
  evs.countP (fun e => verdictString e == some "block")

/-- `totalJudge`: number of verdict events (of any verdict string). -/
def totalVerdictCount (evs : List TimelineEvent) : Nat :=
  (evs.filter isJudgeVerdict).length

/-- The judge-agreement KPI: pending, or a rounded percentage. -/
inductive JudgeAgreement
  | pending
  | percent (value : Int)
deriving DecidableEq

/-- `Math.round` on the exact rational value (half rounds up). -/
def jsRound (q : ℚ) : Int := ⌊q + 1 / 2⌋

/-- The weighted judge-agreement metric: `pending` with zero verdicts, else
`Math.round((allowCount + warnCount * 0.4) / totalJudge * 100)` percent. -/
def judgeAgreement (evs : List TimelineEvent) : JudgeAgreement :=
  if totalVerdictCount evs = 0 then .pending
  else
    .percent (jsRound (((allowCount evs : ℚ) + (warnCount evs : ℚ) * (2 / 5)) /
      (totalVerdictCount evs : ℚ) * 100))

/-- The violations-flagged metric: `warnCount + blockCount`. -/
def violationsFlagged (evs : List TimelineEvent) : Nat :=
  warnCount evs + blockCount evs

/-! ## Filter layer (`exchangeQuestionCategory`, `exchangeViolationCategories`,
`filteredEvents` of App.tsx) -/

/-- `rawCategory && rawCategory.trim().length > 0 ? rawCategory : 'Uncategorized'`. -/
def normalizeQuestionCategory : Option String → String
  | some c => if 0 < c.trim.length then c else "Uncategorized"
  | none => "Uncategorized"

/-- The question-category facet map: the last response event of an exchange
wins (`map.set` overwrites); `none` when the exchange has no response event. -/
def exchangeQuestionCategory (events : List TimelineEvent) (id : String) : Option String :=
  events.foldl
    (fun acc e =>
      match e.payload with
      | .llmResponse p =>
        if e.exchangeId == id then some (normalizeQuestionCategory p.questionCategory) else acc
      | _ => acc)
    none

/-- `payload.violation?.category?.trim() || 'policy_violation'`. -/
def normalizeViolationCategory : Option ViolationDetail → String
  | some v => if v.category.trim = "" then "policy_violation" else v.category.trim
  | none => "policy_violation"

/-- The violation-category facet of an exchange: one entry per verdict
event of the exchange (the code stores a set; only membership and
emptiness are ever consumed). -/
def exchangeViolationCategories (events : List TimelineEvent) (id : String) : List String :=
  events.filterMap
    (fun e =>
      match e.payload with
      | .judgeVerdict p =>
        if e.exchangeId == id then some (normalizeViolationCategory p.violation) else none
      | _ => none)

/-- The per-event filter predicate of `filteredEvents`. -/
def passesFilters (qSel vSel : List String) (events : List TimelineEvent)
    (e : TimelineEvent) : Bool :=
  (qSel.isEmpty ||
    match exchangeQuestionCategory events e.exchangeId with
    | some c => qSel.contains c
    | none => false)
  && (vSel.isEmpty ||
    (exchangeViolationCategories events e.exchangeId).any (fun c => vSel.contains c))

/-- `filteredEvents`: the whole sequence when no filter is active, else the
events whose owning exchange passes both facets. -/
def filteredEvents (qSel vSel : List String) (events : List TimelineEvent) :
    List TimelineEvent :=
  if qSel.isEmpty && vSel.isEmpty then events
  else events.filter (passesFilters qSel vSel events)

/-! ## Reveal gate (`handleRevealResponse` of the Timeline component) -/

/-- Outcome of one reveal request: whether the audit call was issued,
whether the field ended up disclosed, and the error recorded (if any). -/
structure RevealResult where
  auditCalled : Bool
  disclosed : Bool
  error : Option String
deriving DecidableEq

/-- `handleRevealResponse`: the local precondition checks, in source order,
then the audit call; `auditSucceeds` stands for the outcome of the awaited
`onReveal` call.  `piiRawText.getD "" = ""` captures the JS falsiness test
`!responsePayload.pii_raw_text` (absent or empty string). -/
def handleRevealResponse (onRevealConfigured allowReveal : Bool)
    (responsePayload : Option LLMResponsePayload) (auditSucceeds : Bool) : RevealResult :=
  if !onRevealConfigured then
    { auditCalled := false, disclosed := false, error := some "Reveal logging unavailable." }
  else if !allowReveal then
    { auditCalled := false, disclosed := false, error := some "Reveals disabled in demo mode." }
  else
    match responsePayload with
    | none =>
      { auditCalled := false, disclosed := false,
        error := some "Model response not available yet." }
    | some p =>
      if p.piiRawText.getD "" = "" then
        { auditCalled := false, disclosed := false, error := some "Full response not available." }
      else if auditSucceeds then
        { auditCalled := true, disclosed := true, error := none }
      else
        { auditCalled := true, disclosed := false,
          error := some "Failed to log reveal. Please retry." }

/-! ## Live-stream buffer (the `onEvent` handler of the stream subscription) -/

/-- The duplicate test of the `onEvent` handler. -/
def streamKeyMatches (a b : TimelineEvent) : Bool :=
  a.exchangeId == b.exchangeId && a.eventType == b.eventType && a.createdAt == b.createdAt

/-- One stream delivery: drop duplicates by key, append, and keep only the
most recent 500 (`next.slice(-500)`). -/
def streamStep (prev : List TimelineEvent) (event : TimelineEvent) : List TimelineEvent :=
  if prev.any (fun existing => streamKeyMatches existing event) then prev
  else
    let next := prev ++ [event]
    if 500 < next.length then next.drop (next.length - 500) else next

/-- The buffer accumulated from a sequence of deliveries (the buffer starts
empty on subscription). -/
def streamBuffer (deliveries : List TimelineEvent) : List TimelineEvent :=
  deliveries.foldl streamStep []

/-! ## Event source adapter (`toTimelineEvent` of lib/api.ts) -/

/-- A raw backend source object (fields may be missing). -/
structure RawSource where
  modelId : Option String
  provider : Option String
  mode : Option String
deriving DecidableEq

/-- A raw backend violation object. -/
structure RawViolation where
  category : Option String
  severity : Option String
  violationType : Option String
  clauseReference : Option String
  description : Option String
deriving DecidableEq

/-- A raw backend run object. -/
structure RawRun where
  runId : Option String
  scenarioId : Option String
  startedAt : Option Nat
  tags : Option (List (String × String))
deriving DecidableEq

/-- A raw backend payload object, holding every field `toTimelineEvent`
reads (any of them may be missing). -/
structure RawPayload where
  source : Option RawSource
  verdict : Option String
  score : Option Int
  rationaleRedacted : Option String
  rationaleRaw : Option String
  violation : Option RawViolation
  latencyMs : Option Nat
  questionCategory : Option String
  promptPreview : Option String
  completionPreview : Option String
  tokenUsage : Option (List (String × Nat))
  contextTokens : Option Nat
  piiRedactedText : Option String
  piiRawText : Option String
  piiFields : Option (List String)
  finalText : Option String
deriving DecidableEq

/-- The `raw.payload ?? {}` fallback object. -/
def emptyRawPayload : RawPayload :=
  { source := none, verdict := none, score := none, rationaleRedacted := none,
    rationaleRaw := none, violation := none, latencyMs := none, questionCategory := none,
    promptPreview := none, completionPreview := none, tokenUsage := none,
    contextTokens := none, piiRedactedText := none, piiRawText := none, piiFields := none,
    finalText := none }

/-- A raw backend event as received (historical fetch, console submission
or stream frame). -/
structure RawEvent where
  run : Option RawRun
  exchangeId : Option String
  turnIndex : Option Nat
  eventType : Option String
  payload : Option RawPayload
  createdAt : Option Nat
deriving DecidableEq

/-- `ensureSource`: defensive defaults for a missing or partial source. -/
def ensureSource : Option RawSource → SourceInfo
  | some s =>
    match s.modelId with
    | some m => { modelId := m, provider := s.provider.getD "pipeline", mode := s.mode }
    | none => { modelId := "unknown-model", provider := "pipeline", mode := none }
  | none => { modelId := "unknown-model", provider := "pipeline", mode := none }

/-- `ensureViolation`: defaults for category and severity; the optional
text fields drop empty strings (JS falsiness). -/
def ensureViolation : Option RawViolation → Option ViolationDetail
  | none => none
  | some v =>
    some
      { category := v.category.getD "policy_violation",
        severity := v.severity.getD "warn",
        violationType := v.violationType.bind (fun s => if s = "" then none else some s),
        clauseReference := v.clauseReference.bind (fun s => if s = "" then none else some s),
        description := v.description.bind (fun s => if s = "" then none else some s) }

/-- `toTimelineEvent`: normalize one raw event.  `now` stands for
`new Date().toISOString()`, the fallback timestamp.  A raw `event_type` of
`judge_verdict` yields a verdict payload; anything else (including
`user_prompt`, `metric_snapshot`, `audit_record` and a missing type, which
defaults to `audit_record`) is coerced to an `llm_response` event. -/
def toTimelineEvent (now : Nat) (raw : RawEvent) : TimelineEvent :=
  let createdAt := raw.createdAt.getD now
  let run : RunMetadata :=
    { runId := (raw.run.bind (fun r => r.runId)).getD "unknown-run",
      scenarioId := raw.run.bind (fun r => r.scenarioId),
      startedAt := (raw.run.bind (fun r => r.startedAt)).getD createdAt,
      tags := (raw.run.bind (fun r => r.tags)).getD [] }
  let p := raw.payload.getD emptyRawPayload
  let payload :=
    if raw.eventType.getD "audit_record" = "judge_verdict" then
      EventPayload.judgeVerdict
        { source := ensureSource p.source,
          verdict := p.verdict.getD "allow",
          score := p.score,
          rationaleRedacted := p.rationaleRedacted <|> p.rationaleRaw,
          rationaleRaw := p.rationaleRaw,
          violation := ensureViolation p.violation,
          latencyMs := p.latencyMs }
    else
      EventPayload.llmResponse
        { source := ensureSource p.source,
          questionCategory := p.questionCategory,
          promptPreview := p.promptPreview,
          completionPreview := p.completionPreview,
          latencyMs := p.latencyMs,
          tokenUsage := p.tokenUsage.getD [],
          contextTokens := p.contextTokens,
          piiRedactedText := (p.piiRedactedText <|> p.piiRawText <|> p.finalText).getD "",
          piiRawText := p.piiRawText,
          piiFields := p.piiFields }
  { run := run, exchangeId := raw.exchangeId.getD "exchange-unknown",
    turnIndex := raw.turnIndex.getD 0, payload := payload, createdAt := createdAt }

/-! ## Concrete sample data used by witnesses and counterexamples -/

/-- A sample run. -/
def sampleRun : RunMetadata :=
  { runId := "run-1", scenarioId := some "A", startedAt := 0, tags := [] }

/-- A sample source. -/
def sampleSource : SourceInfo :=
  { modelId := "m", provider := "p", mode := none }

/-- A sample response event. -/
def mkResponseEvent (id : String) (t : Nat) (cat : Option String) : TimelineEvent :=
  { run := sampleRun, exchangeId := id, turnIndex := 0,
    payload := .llmResponse
      { source := sampleSource, questionCategory := cat, promptPreview := none,
        completionPreview := none, latencyMs := none, tokenUsage := [],
        contextTokens := none, piiRedactedText := "", piiRawText := none,
        piiFields := none },
    createdAt := t }

/-- A sample verdict event. -/
def mkVerdictEvent (id : String) (t : Nat) (verdict : String)
    (violationCat : Option String) : TimelineEvent :=
  { run := sampleRun, exchangeId := id, turnIndex := 0,
    payload := .judgeVerdict
      { source := sampleSource, verdict := verdict, score := none,
        rationaleRedacted := none, rationaleRaw := none,
        violation := violationCat.map (fun c =>
          { category := c, severity := "warn", violationType := none,
            clauseReference := none, description := none }),
        latencyMs := none },
    createdAt := t }

/-- Events of one exchange arriving out of timestamp order (the later
event carries the earlier timestamp). -/
def c7CexEvents : List TimelineEvent :=
  [mkResponseEvent "ex" 5 none, mkVerdictEvent "ex" 3 "allow" none]

/-- The example verdict window {allow, allow, warn, block} of the claims. -/
def metricsExampleWindow : List TimelineEvent :=
  [mkVerdictEvent "e1" 1 "allow" none, mkVerdictEvent "e2" 2 "allow" none,
   mkVerdictEvent "e3" 3 "warn" none, mkVerdictEvent "e4" 4 "block" none]

/-- Events of one exchange arriving in ascending timestamp order. -/
def c7SortedEvents : List TimelineEvent :=
  [mkResponseEvent "ex" 3 none, mkVerdictEvent "ex" 5 "allow" none]

/-- The single group produced for `c7SortedEvents`. -/
def c7SortedGroup : TurnGroup :=
  { exchangeId := "ex", turnIndex := 0, createdAt := 5, run := sampleRun,
    userPrompt := none,
    response := some
      { source := sampleSource, questionCategory := none, promptPreview := none,
        completionPreview := none, latencyMs := none, tokenUsage := [],
        contextTokens := none, piiRedactedText := "", piiRawText := none,
        piiFields := none },
    judges :=
      [{ source := sampleSource, verdict := "allow", score := none,
         rationaleRedacted := none, rationaleRaw := none, violation := none,
         latencyMs := none }] }

/-- The spec's wording of the filter predicate (claim C6): an exchange
passes iff (no category filter is active, or its category facet is
selected) and (no violation filter is active, or at least one of its
violation categories is selected). -/
def exchangePassesSpec (qSel vSel : List String) (events : List TimelineEvent)
    (id : String) : Prop :=
  (qSel = [] ∨ ∃ c, exchangeQuestionCategory events id = some c ∧ c ∈ qSel)
  ∧ (vSel = [] ∨ ∃ c ∈ exchangeViolationCategories events id, c ∈ vSel)

/-! ## Reconciliation lemmas (claim C1) -/

theorem eventKey_not_mem_seen {seen : List EventKey} {l : List TimelineEvent}
    {e : TimelineEvent} (h : e ∈ dedupGo seen l) : eventKey e ∉ seen := by
  induction l generalizing seen with
  | nil => simp [dedupGo] at h
  | cons x rest ih =>
    by_cases hx : eventKey x ∈ seen
    · rw [dedupGo, if_pos hx] at h
      exact ih h
    · rw [dedupGo, if_neg hx] at h
      rcases List.mem_cons.mp h with rfl | h'
      · exact hx
      · have hni := ih h'
        intro hc
        exact hni (List.mem_cons_of_mem _ hc)

theorem mem_of_mem_dedupGo {seen : List EventKey} {l : List TimelineEvent}
    {e : TimelineEvent} (h : e ∈ dedupGo seen l) : e ∈ l := by
  induction l generalizing seen with
  | nil => simp [dedupGo] at h
  | cons x rest ih =>
    by_cases hx : eventKey x ∈ seen
    · rw [dedupGo, if_pos hx] at h
      exact List.mem_cons_of_mem _ (ih h)
    · rw [dedupGo, if_neg hx] at h
      rcases List.mem_cons.mp h with rfl | h'
      · exact List.mem_cons_self _ _
      · exact List.mem_cons_of_mem _ (ih h')

theorem dedupGo_pairwise (seen : List EventKey) (l : List TimelineEvent) :
    (dedupGo seen l).Pairwise (fun a b => eventKey a ≠ eventKey b) := by
  induction l generalizing seen with
  | nil => simp [dedupGo]
  | cons x rest ih =>
    by_cases hx : eventKey x ∈ seen
    · rw [dedupGo, if_pos hx]
      exact ih seen
    · rw [dedupGo, if_neg hx]
      refine List.Pairwise.cons (fun e he => ?_) (ih _)
      have hni := eventKey_not_mem_seen he
      intro hk
      exact hni (hk ▸ List.mem_cons_self _ _)

theorem key_mem_dedupGo {k : EventKey} {l : List TimelineEvent} {seen : List EventKey}
    (hl : k ∈ l.map eventKey) (hs : k ∉ seen) : k ∈ (dedupGo seen l).map eventKey := by
  induction l generalizing seen with
  | nil => simp at hl
  | cons x rest ih =>
    rw [List.map_cons] at hl
    by_cases hx : eventKey x ∈ seen
    · rw [dedupGo, if_pos hx]
      rcases List.mem_cons.mp hl with rfl | hk
      · exact absurd hx hs
      · exact ih hk hs
    · rw [dedupGo, if_neg hx]
      rw [List.map_cons]
      rcases List.mem_cons.mp hl with rfl | hk
      · exact List.mem_cons_self _ _
      · by_cases hkx : k = eventKey x
        · exact hkx ▸ List.mem_cons_self _ _
        · refine List.mem_cons_of_mem _ (ih hk ?_)
          intro hc
          rcases List.mem_cons.mp hc with hc | hc
          · exact hkx hc
          · exact hs hc

theorem mem_left_of_key_mem {l₁ l₂ : List TimelineEvent} {seen : List EventKey}
    {e : TimelineEvent} (h : e ∈ dedupGo seen (l₁ ++ l₂))
    (hk : eventKey e ∈ l₁.map eventKey) : e ∈ l₁ := by
  induction l₁ generalizing seen with
  | nil => simp at hk
  | cons x rest ih =>
    rw [List.cons_append] at h
    rw [List.map_cons] at hk
    by_cases hx : eventKey x ∈ seen
    · rw [dedupGo, if_pos hx] at h
      have hne : eventKey e ≠ eventKey x := fun hc => (eventKey_not_mem_seen h) (hc ▸ hx)
      rcases List.mem_cons.mp hk with hk' | hk'
      · exact absurd hk' hne
      · exact List.mem_cons_of_mem _ (ih h hk')
    · rw [dedupGo, if_neg hx] at h
      rcases List.mem_cons.mp h with rfl | h'
      · exact List.mem_cons_self _ _
      · have hni := eventKey_not_mem_seen h'
        have hne : eventKey e ≠ eventKey x := fun hc => hni (hc ▸ List.mem_cons_self _ _)
        rcases List.mem_cons.mp hk with hk' | hk'
        · exact absurd hk' hne
        · exact List.mem_cons_of_mem _ (ih h' hk')

theorem insertByCreatedAt_perm (e : TimelineEvent) (l : List TimelineEvent) :
    List.Perm (insertByCreatedAt e l) (e :: l) := by
  induction l with
  | nil => exact List.Perm.refl _
  | cons x xs ih =>
    rw [insertByCreatedAt]
    by_cases h : e.createdAt ≤ x.createdAt
    · rw [if_pos h]
    · rw [if_neg h]
      exact (ih.cons x).trans (List.Perm.swap e x xs)

theorem sortByCreatedAt_perm (l : List TimelineEvent) :
    List.Perm (sortByCreatedAt l) l := by
  induction l with
  | nil => exact List.Perm.refl _
  | cons x xs ih => exact (insertByCreatedAt_perm x _).trans (ih.cons x)

theorem insertByCreatedAt_pairwise {l : List TimelineEvent} (e : TimelineEvent)
    (h : l.Pairwise (fun a b => a.createdAt ≤ b.createdAt)) :
    (insertByCreatedAt e l).Pairwise (fun a b => a.createdAt ≤ b.createdAt) := by
  induction l with
  | nil => simp [insertByCreatedAt]
  | cons x xs ih =>
    rw [insertByCreatedAt]
    rcases List.pairwise_cons.mp h with ⟨hx, hxs⟩
    by_cases hc : e.createdAt ≤ x.createdAt
    · rw [if_pos hc]
      refine List.Pairwise.cons (fun b hb => ?_) h
      rcases List.mem_cons.mp hb with rfl | hb'
      · exact hc
      · exact le_trans hc (hx b hb')
    · rw [if_neg hc]
      refine List.Pairwise.cons (fun b hb => ?_) (ih hxs)
      have hxe : x.createdAt ≤ e.createdAt := le_of_not_le hc
      have hb2 : b ∈ e :: xs := (insertByCreatedAt_perm e xs).subset hb
      rcases List.mem_cons.mp hb2 with rfl | hb'
      · exact hxe
      · exact hx b hb'

theorem sortByCreatedAt_pairwise (l : List TimelineEvent) :
    (sortByCreatedAt l).Pairwise (fun a b => a.createdAt ≤ b.createdAt) := by
  induction l with
  | nil => simp [sortByCreatedAt]
  | cons x xs ih => exact insertByCreatedAt_pairwise x ih

theorem filter_insertByCreatedAt (t : Nat) (e : TimelineEvent) (l : List TimelineEvent) :
    (insertByCreatedAt e l).filter (fun x => x.createdAt == t) =
      if e.createdAt = t then e :: l.filter (fun x => x.createdAt == t)
      else l.filter (fun x => x.createdAt == t) := by
  induction l with
  | nil =>
    by_cases h : e.createdAt = t <;> simp [insertByCreatedAt, h]
  | cons x xs ih =>
    rw [insertByCreatedAt]
    by_cases hc : e.createdAt ≤ x.createdAt
    · rw [if_pos hc]
      by_cases h : e.createdAt = t <;> simp [List.filter_cons, h]
    · rw [if_neg hc]
      have hlt : x.createdAt < e.createdAt := lt_of_not_le hc
      by_cases h : e.createdAt = t
      · have hxt : ¬ x.createdAt = t := by omega
        simp [List.filter_cons, ih, h, hxt]
      · simp [List.filter_cons, ih, h]

theorem filter_sortByCreatedAt (t : Nat) (l : List TimelineEvent) :
    (sortByCreatedAt l).filter (fun x => x.createdAt == t) =
      l.filter (fun x => x.createdAt == t) := by
  induction l with
  | nil => rfl
  | cons x xs ih =>
    show (insertByCreatedAt x (sortByCreatedAt xs)).filter _ = _
    rw [filter_insertByCreatedAt]
    by_cases h : x.createdAt = t
    · rw [if_pos h, ih]
      simp [List.filter_cons, h]
    · rw [if_neg h, ih]
      simp [List.filter_cons, h]

/-- C1: the reconciliation merge (historical events inserted first, then
live events, dropping already-seen `(kind, exchangeId, createdAt)` keys,
then stably sorted by `createdAt`) yields pairwise-distinct keys, keeps
the historical copy of any key present in the historical feed, is sorted
ascending on adjacent `createdAt`, keeps insertion order (historical
survivors before live survivors) among equal timestamps, and is
deterministic on unchanged inputs. -/
theorem reconcile_merge_spec (H L : List TimelineEvent) :
    (orderedEvents H L).Pairwise (fun a b => eventKey a ≠ eventKey b)
    ∧ (∀ e ∈ orderedEvents H L, eventKey e ∈ H.map eventKey → e ∈ H)
    ∧ (∀ h ∈ H, eventKey h ∈ (orderedEvents H L).map eventKey)
    ∧ (orderedEvents H L).Chain' (fun a b => a.createdAt ≤ b.createdAt)
    ∧ (∀ t : Nat, (orderedEvents H L).filter (fun e => e.createdAt == t) =
        (combinedEvents H L).filter (fun e => e.createdAt == t))
    ∧ orderedEvents H L = orderedEvents H L := by
  have hperm : List.Perm (orderedEvents H L) (combinedEvents H L) := sortByCreatedAt_perm _
  refine ⟨?_, ?_, ?_, ?_, ?_, rfl⟩
  · exact (hperm.pairwise_iff (fun hxy hc => hxy hc.symm)).mpr (dedupGo_pairwise [] (H ++ L))
  · intro e he hk
    exact mem_left_of_key_mem (hperm.subset he) hk
  · intro h hh
    have hkey : eventKey h ∈ (combinedEvents H L).map eventKey :=
      key_mem_dedupGo (l := H ++ L)
        (List.mem_map_of_mem eventKey (List.mem_append_left L hh))
        (List.not_mem_nil _)
    exact ((hperm.map eventKey).mem_iff).mpr hkey
  · exact List.Pairwise.chain' (sortByCreatedAt_pairwise _)
  · intro t
    exact filter_sortByCreatedAt t _

/-! ## Grouper lemmas (claims C2 and C7) -/

theorem applyEvent_exchangeId (g : TurnGroup) (e : TimelineEvent) :
    (applyEvent g e).exchangeId = g.exchangeId := by
  cases hp : e.payload <;> simp [applyEvent, hp]

theorem any_id_iff (acc : List TurnGroup) (id : String) :
    acc.any (fun g => g.exchangeId == id) = true ↔
      id ∈ acc.map (fun g => g.exchangeId) := by
  simp only [List.any_eq_true, List.mem_map, beq_iff_eq]

theorem groupStep_map_id (acc : List TurnGroup) (e : TimelineEvent) :
    (groupStep acc e).map (fun g => g.exchangeId) =
      if e.exchangeId ∈ acc.map (fun g => g.exchangeId) then
        acc.map (fun g => g.exchangeId)
      else acc.map (fun g => g.exchangeId) ++ [e.exchangeId] := by
  by_cases hmem : e.exchangeId ∈ acc.map (fun g => g.exchangeId)
  · rw [if_pos hmem, groupStep, if_pos ((any_id_iff acc _).mpr hmem), List.map_map]
    refine List.map_congr_left (fun g _ => ?_)
    by_cases hg : (g.exchangeId == e.exchangeId) = true
    · simp [Function.comp, hg, applyEvent_exchangeId, beq_iff_eq.mp hg]
    · simp [Function.comp, hg]
  · rw [if_neg hmem, groupStep,
      if_neg (fun hc => hmem ((any_id_iff acc _).mp hc)), List.map_append]
    simp [applyEvent_exchangeId, newGroup]

theorem firstSeenGo_congr {s t : List String} (h : ∀ a, a ∈ s ↔ a ∈ t) :
    ∀ l, firstSeenGo s l = firstSeenGo t l := by
  intro l
  induction l generalizing s t with
  | nil => rfl
  | cons x xs ih =>
    by_cases hx : x ∈ s
    · rw [firstSeenGo, if_pos hx, firstSeenGo, if_pos ((h x).mp hx)]
      exact ih h
    · rw [firstSeenGo, if_neg hx, firstSeenGo, if_neg (fun hc => hx ((h x).mpr hc))]
      congr 1
      exact ih (fun a => by simp [List.mem_cons, h a])

theorem foldl_groupStep_map_id (evs : List TimelineEvent) (acc : List TurnGroup) :
    (evs.foldl groupStep acc).map (fun g => g.exchangeId) =
      acc.map (fun g => g.exchangeId) ++
        firstSeenGo (acc.map (fun g => g.exchangeId)) (evs.map (fun e => e.exchangeId)) := by
  induction evs generalizing acc with
  | nil => simp [firstSeenGo]
  | cons e rest ih =>
    rw [List.foldl_cons, List.map_cons, ih]
    by_cases hmem : e.exchangeId ∈ acc.map (fun g => g.exchangeId)
    · rw [groupStep_map_id, if_pos hmem, firstSeenGo, if_pos hmem]
    · rw [groupStep_map_id, if_neg hmem, firstSeenGo, if_neg hmem]
      rw [firstSeenGo_congr (s := acc.map (fun g => g.exchangeId) ++ [e.exchangeId])
        (t := e.exchangeId :: acc.map (fun g => g.exchangeId))
        (fun a => by simp [List.mem_append, List.mem_cons, or_comm])]
      simp [List.append_assoc]

theorem mem_firstSeenGo {a : String} : ∀ {seen l : List String},
    a ∈ firstSeenGo seen l ↔ a ∈ l ∧ a ∉ seen := by
  intro seen l
  induction l generalizing seen with
  | nil => simp [firstSeenGo]
  | cons x xs ih =>
    by_cases hx : x ∈ seen
    · rw [firstSeenGo, if_pos hx, ih]
      constructor
      · rintro ⟨h1, h2⟩
        exact ⟨List.mem_cons_of_mem _ h1, h2⟩
      · rintro ⟨h1, h2⟩
        rcases List.mem_cons.mp h1 with rfl | h1'
        · exact absurd hx h2
        · exact ⟨h1', h2⟩
    · rw [firstSeenGo, if_neg hx]
      constructor
      · intro h
        rcases List.mem_cons.mp h with rfl | h'
        · exact ⟨List.mem_cons_self _ _, hx⟩
        · rcases ih.mp h' with ⟨h1, h2⟩
          exact ⟨List.mem_cons_of_mem _ h1, fun hc => h2 (List.mem_cons_of_mem _ hc)⟩
      · rintro ⟨h1, h2⟩
        by_cases hax : a = x
        · exact hax ▸ List.mem_cons_self _ _
        · rcases List.mem_cons.mp h1 with rfl | h1'
          · exact absurd rfl hax
          · exact List.mem_cons_of_mem _
              (ih.mpr ⟨h1', fun hc => (List.mem_cons.mp hc).elim hax h2⟩)

theorem firstSeenGo_nodup : ∀ (seen l : List String), (firstSeenGo seen l).Nodup := by
  intro seen l
  induction l generalizing seen with
  | nil => simp [firstSeenGo]
  | cons x xs ih =>
    by_cases hx : x ∈ seen
    · rw [firstSeenGo, if_pos hx]
      exact ih _
    · rw [firstSeenGo, if_neg hx]
      refine List.nodup_cons.mpr ⟨?_, ih _⟩
      intro hc
      exact (mem_firstSeenGo.mp hc).2 (List.mem_cons_self _ _)

theorem findGroup_eq_find? (acc : List TurnGroup) (id : String) :
    findGroup acc id = acc.find? (fun g => g.exchangeId == id) := rfl

theorem findGroup_some {acc : List TurnGroup} {id : String} {g : TurnGroup}
    (h : findGroup acc id = some g) : g.exchangeId = id := by
  rw [findGroup_eq_find?] at h
  exact beq_iff_eq.mp (List.find?_some (p := fun (g : TurnGroup) => g.exchangeId == id) h)

theorem findGroup_map (acc : List TurnGroup) (f : TurnGroup → TurnGroup)
    (hf : ∀ g, (f g).exchangeId = g.exchangeId) (id : String) :
    findGroup (acc.map f) id = (findGroup acc id).map f := by
  induction acc with
  | nil => rfl
  | cons x xs ih =>
    rw [findGroup_eq_find?, findGroup_eq_find?, List.map_cons]
    by_cases hx : (x.exchangeId == id) = true
    · rw [List.find?_cons_of_pos (p := fun (g : TurnGroup) => g.exchangeId == id) _
        (by simp only [hf]; exact hx),
        List.find?_cons_of_pos (p := fun (g : TurnGroup) => g.exchangeId == id) _ hx]
      rfl
    · rw [List.find?_cons_of_neg (p := fun (g : TurnGroup) => g.exchangeId == id) _
        (by simp only [hf]; exact hx),
        List.find?_cons_of_neg (p := fun (g : TurnGroup) => g.exchangeId == id) _ hx]
      rw [findGroup_eq_find?, findGroup_eq_find?] at ih
      exact ih

theorem findGroup_groupStep_ne (acc : List TurnGroup) (e : TimelineEvent) (id : String)
    (hne : ¬ e.exchangeId = id) :
    findGroup (groupStep acc e) id = findGroup acc id := by
  unfold groupStep
  by_cases hany : acc.any (fun g => g.exchangeId == e.exchangeId) = true
  · rw [if_pos hany,
      findGroup_map _ _ (fun g => by
        by_cases hg : (g.exchangeId == e.exchangeId) = true <;>
          simp [hg, applyEvent_exchangeId])]
    cases hfind : findGroup acc id with
    | none => rfl
    | some g =>
      have hgid : g.exchangeId = id := findGroup_some hfind
      have hg2 : ¬ (g.exchangeId == e.exchangeId) = true := by
        simp only [beq_iff_eq]
        exact fun hc => hne (hc ▸ hgid : e.exchangeId = id)
      simp [Option.map, hg2]
  · rw [if_neg hany]
    rw [findGroup_eq_find?, List.find?_append]
    have hng : ¬ ((applyEvent (newGroup e) e).exchangeId == id) = true := by
      rw [applyEvent_exchangeId]
      simpa [newGroup] using hne
    rw [← findGroup_eq_find?]
    cases hfind : findGroup acc id with
    | none => simp [List.find?, hng]
    | some g => rfl

theorem findGroup_groupStep_self (acc : List TurnGroup) (e : TimelineEvent) :
    findGroup (groupStep acc e) e.exchangeId =
      some (match findGroup acc e.exchangeId with
            | some g => applyEvent g e
            | none => applyEvent (newGroup e) e) := by
  unfold groupStep
  by_cases hany : acc.any (fun g => g.exchangeId == e.exchangeId) = true
  · rw [if_pos hany,
      findGroup_map _ _ (fun g => by
        by_cases hg : (g.exchangeId == e.exchangeId) = true <;>
          simp [hg, applyEvent_exchangeId])]
    have hsome : (findGroup acc e.exchangeId).isSome = true := by
      rw [findGroup_eq_find?, List.find?_isSome]
      rcases List.any_eq_true.mp hany with ⟨g, hg, hgid⟩
      exact ⟨g, hg, hgid⟩
    cases hfind : findGroup acc e.exchangeId with
    | none => rw [hfind] at hsome; simp at hsome
    | some g =>
      have hgid : (g.exchangeId == e.exchangeId) = true :=
        beq_iff_eq.mpr (findGroup_some hfind)
      simp [Option.map, hgid]
  · rw [if_neg hany]
    have hfind : findGroup acc e.exchangeId = none := by
      rw [findGroup_eq_find?, List.find?_eq_none]
      intro g hg hgid
      exact hany (List.any_eq_true.mpr ⟨g, hg, hgid⟩)
    rw [findGroup_eq_find?, List.find?_append, ← findGroup_eq_find?, hfind]
    have hpos : ((applyEvent (newGroup e) e).exchangeId == e.exchangeId) = true := by
      simp [applyEvent_exchangeId, newGroup]
    simp [List.find?, hpos]

theorem findGroup_foldl (evs : List TimelineEvent) (acc : List TurnGroup) (id : String) :
    findGroup (evs.foldl groupStep acc) id =
      match findGroup acc id with
      | some g => some ((constituents evs id).foldl applyEvent g)
      | none =>
        match constituents evs id with
        | [] => none
        | e :: rest => some (rest.foldl applyEvent (applyEvent (newGroup e) e)) := by
  induction evs generalizing acc with
  | nil =>
    cases hfind : findGroup acc id <;> simp [constituents, hfind]
  | cons e rest ih =>
    rw [List.foldl_cons, ih]
    by_cases he : e.exchangeId = id
    · have hcons : constituents (e :: rest) id = e :: constituents rest id := by
        simp [constituents, List.filter_cons, he]
      subst he
      rw [findGroup_groupStep_self, hcons]
      cases hfind : findGroup acc e.exchangeId with
      | none => simp
      | some g => simp [List.foldl_cons]
    · have hcons : constituents (e :: rest) id = constituents rest id := by
        simp [constituents, List.filter_cons, he]
      rw [findGroup_groupStep_ne _ _ _ he, hcons]

theorem findGroup_of_mem {acc : List TurnGroup} {g : TurnGroup}
    (hnd : (acc.map (fun g => g.exchangeId)).Nodup) (hmem : g ∈ acc) :
    findGroup acc g.exchangeId = some g := by
  induction acc with
  | nil => simp at hmem
  | cons x xs ih =>
    rw [List.map_cons, List.nodup_cons] at hnd
    rcases List.mem_cons.mp hmem with rfl | hmem'
    · rw [findGroup_eq_find?,
        List.find?_cons_of_pos (p := fun (g_1 : TurnGroup) => g_1.exchangeId == g.exchangeId) _ (by simp)]
    · have hne : ¬ (x.exchangeId == g.exchangeId) = true := by
        simp only [beq_iff_eq]
        intro hc
        exact hnd.1 (hc ▸ List.mem_map_of_mem _ hmem')
      rw [findGroup_eq_find?,
        List.find?_cons_of_neg (p := fun (g_1 : TurnGroup) => g_1.exchangeId == g.exchangeId) _ hne,
        ← findGroup_eq_find?]
      exact ih hnd.2 hmem'

theorem groups_map_id (events : List TimelineEvent) :
    (groups events).map (fun g => g.exchangeId) =
      firstSeenGo [] (events.map (fun e => e.exchangeId)) := by
  simpa using foldl_groupStep_map_id events []

theorem groups_nodup_id (events : List TimelineEvent) :
    ((groups events).map (fun g => g.exchangeId)).Nodup := by
  rw [groups_map_id]
  exact firstSeenGo_nodup [] _

theorem findGroup_groups (events : List TimelineEvent) (id : String) :
    findGroup (groups events) id =
      match constituents events id with
      | [] => none
      | e :: rest => some (rest.foldl applyEvent (applyEvent (newGroup e) e)) := by
  have := findGroup_foldl events [] id
  simpa [findGroup, groups] using this

theorem mem_groups_eq (events : List TimelineEvent) {g : TurnGroup}
    (hmem : g ∈ groups events) :
    ∃ e rest, constituents events g.exchangeId = e :: rest ∧
      g = (constituents events g.exchangeId).foldl applyEvent (newGroup e) := by
  have hfind : findGroup (groups events) g.exchangeId = some g :=
    findGroup_of_mem (groups_nodup_id events) hmem
  rw [findGroup_groups] at hfind
  cases hcs : constituents events g.exchangeId with
  | nil => rw [hcs] at hfind; simp at hfind
  | cons e rest =>
    rw [hcs] at hfind
    refine ⟨e, rest, rfl, ?_⟩
    simp only [Option.some.injEq] at hfind
    rw [List.foldl_cons]
    exact hfind.symm

theorem foldl_applyEvent_judges (l : List TimelineEvent) (g : TurnGroup) :
    (l.foldl applyEvent g).judges = g.judges ++ l.filterMap verdictOf := by
  induction l generalizing g with
  | nil => simp
  | cons e rest ih =>
    rw [List.foldl_cons, ih, List.filterMap_cons]
    cases hp : e.payload <;> simp [applyEvent, verdictOf, hp]

theorem foldl_applyEvent_response (l : List TimelineEvent) (g : TurnGroup) :
    (l.foldl applyEvent g).response =
      l.foldl (fun acc e =>
        match e.payload with
        | .llmResponse p => some p
        | _ => acc) g.response := by
  induction l generalizing g with
  | nil => rfl
  | cons e rest ih =>
    rw [List.foldl_cons, List.foldl_cons, ih]
    congr 1
    cases hp : e.payload <;> simp [applyEvent, hp]

theorem foldl_applyEvent_userPrompt (l : List TimelineEvent) (g : TurnGroup) :
    (l.foldl applyEvent g).userPrompt =
      l.foldl (fun acc e =>
        match e.payload with
        | .userPrompt p => some p
        | _ => acc) g.userPrompt := by
  induction l generalizing g with
  | nil => rfl
  | cons e rest ih =>
    rw [List.foldl_cons, List.foldl_cons, ih]
    congr 1
    cases hp : e.payload <;> simp [applyEvent, hp]

theorem foldl_applyEvent_createdAt (l : List TimelineEvent) (g : TurnGroup) :
    (l.foldl applyEvent g).createdAt =
      l.foldl (fun _ e => e.createdAt) g.createdAt := by
  induction l generalizing g with
  | nil => rfl
  | cons e rest ih =>
    rw [List.foldl_cons, List.foldl_cons, ih]
    congr 1
    cases hp : e.payload <;> simp [applyEvent, hp]

theorem length_filterMap_verdictOf (l : List TimelineEvent) :
    (l.filterMap verdictOf).length = (l.filter isJudgeVerdict).length := by
  induction l with
  | nil => rfl
  | cons e rest ih =>
    cases hp : e.payload <;>
      simp [List.filterMap_cons, List.filter_cons, verdictOf, isJudgeVerdict, hp, ih]

theorem foldl_const_last (l : List TimelineEvent) (b : Nat) (h : l ≠ []) :
    l.foldl (fun _ e => e.createdAt) b = (l.getLast h).createdAt := by
  induction l generalizing b with
  | nil => exact absurd rfl h
  | cons x xs ih =>
    rw [List.foldl_cons]
    by_cases hxs : xs = []
    · subst hxs
      simp
    · rw [ih x.createdAt hxs, List.getLast_cons hxs]

theorem le_getLast_of_pairwise : ∀ (l : List TimelineEvent),
    l.Pairwise (fun a b => a.createdAt ≤ b.createdAt) →
    ∀ (h : l ≠ []) (e : TimelineEvent), e ∈ l →
      e.createdAt ≤ (l.getLast h).createdAt := by
  intro l
  induction l with
  | nil => intro _ h; exact absurd rfl h
  | cons x xs ih =>
    intro hp h e he
    rcases List.mem_cons.mp he with rfl | he'
    · by_cases hxs : xs = []
      · subst hxs
        simp
      · rw [List.getLast_cons hxs]
        exact (List.pairwise_cons.mp hp).1 _ (List.getLast_mem hxs)
    · have hxs : xs ≠ [] := List.ne_nil_of_mem he'
      rw [List.getLast_cons hxs]
      exact ih (List.pairwise_cons.mp hp).2 hxs e he'

theorem pairwise_of_chain' {l : List TimelineEvent}
    (h : l.Chain' (fun a b => a.createdAt ≤ b.createdAt)) :
    l.Pairwise (fun a b => a.createdAt ≤ b.createdAt) := by
  haveI : IsTrans TimelineEvent (fun a b => a.createdAt ≤ b.createdAt) :=
    ⟨fun _ _ _ => le_trans⟩
  exact List.chain'_iff_pairwise.mp h

/-- C2: on any event sequence the grouper yields exactly one exchange per
distinct `exchange_id`, listed in first-seen order of `exchange_id`; each
exchange's verdict list length equals the number of verdict-kind events of
that exchange (verdicts are appended, never overwritten), while the stored
prompt and response payloads are the last ones seen for the exchange (a
later prompt or response event overwrites the previous payload). -/
theorem grouper_spec (events : List TimelineEvent) :
    (groups events).map (fun g => g.exchangeId) =
        firstSeenGo [] (events.map (fun e => e.exchangeId))
    ∧ ((groups events).map (fun g => g.exchangeId)).Nodup
    ∧ (∀ e ∈ events, ∃ g ∈ groups events, g.exchangeId = e.exchangeId)
    ∧ (∀ g ∈ groups events,
        g.judges.length =
          (events.filter (fun e => isJudgeVerdict e && e.exchangeId == g.exchangeId)).length)
    ∧ (∀ g ∈ groups events,
        g.response = (constituents events g.exchangeId).foldl
          (fun acc e =>
            match e.payload with
            | .llmResponse p => some p
            | _ => acc) none
        ∧ g.userPrompt = (constituents events g.exchangeId).foldl
          (fun acc e =>
            match e.payload with
            | .userPrompt p => some p
            | _ => acc) none) := by
  refine ⟨groups_map_id events, groups_nodup_id events, ?_, ?_, ?_⟩
  · intro e he
    have hid : e.exchangeId ∈ (groups events).map (fun g => g.exchangeId) := by
      rw [groups_map_id]
      exact mem_firstSeenGo.mpr ⟨List.mem_map_of_mem _ he, List.not_mem_nil _⟩
    rcases List.mem_map.mp hid with ⟨g, hg, hgid⟩
    exact ⟨g, hg, hgid⟩
  · intro g hg
    rcases mem_groups_eq events hg with ⟨e0, rest, hcs, hgeq⟩
    have hj : g.judges = (constituents events g.exchangeId).filterMap verdictOf := by
      conv_lhs => rw [hgeq]
      rw [foldl_applyEvent_judges]
      simp [newGroup]
    rw [hj, length_filterMap_verdictOf, constituents, List.filter_filter]
  · intro g hg
    rcases mem_groups_eq events hg with ⟨e0, rest, hcs, hgeq⟩
    constructor
    · conv_lhs => rw [hgeq]
      rw [foldl_applyEvent_response]
      rfl
    · conv_lhs => rw [hgeq]
      rw [foldl_applyEvent_userPrompt]
      rfl

/-- C7 (amended): an exchange's `createdAt` equals the `createdAt` of its
last constituent event in input order (the code assigns, it does not take
a maximum); consequently, when the input sequence is sorted ascending by
`createdAt` — as the reconciled sequence fed to the grouper is — it is the
maximum over the constituents, and that maximum is attained. -/
theorem grouper_createdAt (events : List TimelineEvent) (g : TurnGroup)
    (hmem : g ∈ groups events) :
    (∃ hne : constituents events g.exchangeId ≠ [],
        g.createdAt = ((constituents events g.exchangeId).getLast hne).createdAt)
    ∧ (events.Chain' (fun a b => a.createdAt ≤ b.createdAt) →
        (∀ e ∈ events, e.exchangeId = g.exchangeId → e.createdAt ≤ g.createdAt)
        ∧ ∃ e ∈ events, e.exchangeId = g.exchangeId ∧ e.createdAt = g.createdAt) := by
  rcases mem_groups_eq events hmem with ⟨e0, rest, hcs, hgeq⟩
  have hne : constituents events g.exchangeId ≠ [] := by
    rw [hcs]
    exact List.cons_ne_nil _ _
  have hlast : g.createdAt = ((constituents events g.exchangeId).getLast hne).createdAt := by
    conv_lhs => rw [hgeq]
    rw [foldl_applyEvent_createdAt]
    exact foldl_const_last _ _ hne
  refine ⟨⟨hne, hlast⟩, fun hchain => ?_⟩
  have hpw : (constituents events g.exchangeId).Pairwise
      (fun a b => a.createdAt ≤ b.createdAt) :=
    List.Pairwise.sublist (List.filter_sublist events) (pairwise_of_chain' hchain)
  have hlastmem : (constituents events g.exchangeId).getLast hne ∈
      constituents events g.exchangeId := List.getLast_mem hne
  have hlastfacts := List.mem_filter.mp hlastmem
  refine ⟨?_, ?_⟩
  · intro e he hid
    have hec : e ∈ constituents events g.exchangeId :=
      List.mem_filter.mpr ⟨he, beq_iff_eq.mpr hid⟩
    rw [hlast]
    exact le_getLast_of_pairwise _ hpw hne e hec
  · refine ⟨(constituents events g.exchangeId).getLast hne, hlastfacts.1,
      beq_iff_eq.mp hlastfacts.2, hlast.symm⟩

/-- C7 counterexample: on the out-of-order input `c7CexEvents` the
exchange's `createdAt` (3) is strictly below a constituent's `createdAt`
(5), so it is not the maximum over the constituents. -/
theorem grouper_createdAt_cex :
    ∃ g ∈ groups c7CexEvents, ∃ e ∈ c7CexEvents,
      e.exchangeId = g.exchangeId ∧ g.createdAt < e.createdAt := by decide

/-- C7 witness: the amended theorem applied to a concrete sorted input. -/
theorem grouper_createdAt_witness :
    (∃ hne : constituents c7SortedEvents c7SortedGroup.exchangeId ≠ [],
        c7SortedGroup.createdAt =
          ((constituents c7SortedEvents c7SortedGroup.exchangeId).getLast hne).createdAt)
    ∧ (c7SortedEvents.Chain' (fun a b => a.createdAt ≤ b.createdAt) →
        (∀ e ∈ c7SortedEvents, e.exchangeId = c7SortedGroup.exchangeId →
          e.createdAt ≤ c7SortedGroup.createdAt)
        ∧ ∃ e ∈ c7SortedEvents, e.exchangeId = c7SortedGroup.exchangeId ∧
            e.createdAt = c7SortedGroup.createdAt) :=
  grouper_createdAt c7SortedEvents c7SortedGroup (by decide)

/-! ## Playback controller (claims C3 and C4) -/

theorem applyOp_index_range (len : Nat) (s : PlaybackState) (op : PlaybackOp)
    (h1 : -1 ≤ s.index) (h2 : s.index ≤ (len : Int) - 1) :
    -1 ≤ (applyOp len s op).index ∧ (applyOp len s op).index ≤ (len : Int) - 1 := by
  cases op with
  | stepForward =>
    dsimp only [applyOp, handleStepForward]
    split_ifs with h
    · exact ⟨h1, h2⟩
    · dsimp only
      constructor
      · rw [min_def]
        split_ifs <;> omega
      · rw [min_def]
        split_ifs <;> omega
  | stepBack =>
    dsimp only [applyOp, handleStepBack]
    split_ifs with h
    · exact ⟨h1, h2⟩
    · dsimp only
      constructor
      · rw [max_def]
        split_ifs <;> omega
      · rw [max_def]
        split_ifs <;> omega
  | scrub i =>
    dsimp only [applyOp, handleScrub]
    split_ifs with h
    · exact ⟨h1, h2⟩
    · have hlen : 1 ≤ len := Nat.one_le_iff_ne_zero.mpr h
      dsimp only
      constructor
      · rw [min_def, max_def]
        split_ifs <;> omega
      · rw [min_def, max_def]
        split_ifs <;> omega

/-- C3 (amended): starting from any index in `[-1, length-1]`, any finite
sequence of scrub/stepForward/stepBack calls keeps the index inside
`[-1, length-1]`; on a non-empty sequence the handlers set the index to
the claimed clamps and cancel playing (and show-all); on an empty sequence
the handlers are no-ops (in particular they do not cancel playing). -/
theorem playback_clamp (len : Nat) (s : PlaybackState)
    (h1 : -1 ≤ s.index) (h2 : s.index ≤ (len : Int) - 1) :
    (∀ ops : List PlaybackOp, -1 ≤ (applyOps len s ops).index ∧
        (applyOps len s ops).index ≤ (len : Int) - 1)
    ∧ (0 < len →
        handleStepForward len s =
          { index := max (min (s.index + 1) ((len : Int) - 1)) (-1),
            playing := false, showAll := false }
        ∧ handleStepBack len s =
          { index := min (max (s.index - 1) (-1)) ((len : Int) - 1),
            playing := false, showAll := false }
        ∧ ∀ i : Int, handleScrub len i s =
            { index := min (max i 0) ((len : Int) - 1),
              playing := false, showAll := false })
    ∧ (len = 0 → ∀ op : PlaybackOp, applyOp len s op = s) := by
  refine ⟨?_, ?_, ?_⟩
  · intro ops
    induction ops generalizing s with
    | nil => exact ⟨h1, h2⟩
    | cons op rest ih =>
      rw [applyOps, List.foldl_cons]
      rcases applyOp_index_range len s op h1 h2 with ⟨hh1, hh2⟩
      exact ih _ hh1 hh2
  · intro hlen
    have hne : ¬ len = 0 := Nat.pos_iff_ne_zero.mp hlen
    refine ⟨?_, ?_, ?_⟩
    · rw [handleStepForward, if_neg hne]
      have hmax : max (min (s.index + 1) ((len : Int) - 1)) (-1) =
          min (s.index + 1) ((len : Int) - 1) := by
        rw [max_eq_left]
        rw [le_min_iff]
        constructor <;> omega
      rw [hmax]
    · rw [handleStepBack, if_neg hne]
      have hmin : min (max (s.index - 1) (-1)) ((len : Int) - 1) =
          max (s.index - 1) (-1) := by
        rw [min_eq_left]
        rw [max_le_iff]
        constructor <;> omega
      rw [hmin]
    · intro i
      rw [handleScrub, if_neg hne]
  · intro hlen op
    cases op <;> simp [applyOp, handleStepForward, handleStepBack, handleScrub, hlen]

/-- C3 witness: the theorem applied at `len = 3`, `index = 1`. -/
theorem playback_clamp_witness :
    (∀ ops : List PlaybackOp,
        -1 ≤ (applyOps 3 { index := 1, playing := true, showAll := false } ops).index ∧
        (applyOps 3 { index := 1, playing := true, showAll := false } ops).index ≤ (3 : Int) - 1)
    ∧ (0 < 3 →
        handleStepForward 3 { index := 1, playing := true, showAll := false } =
          { index := max (min ((1 : Int) + 1) ((3 : Int) - 1)) (-1),
            playing := false, showAll := false }
        ∧ handleStepBack 3 { index := 1, playing := true, showAll := false } =
          { index := min (max ((1 : Int) - 1) (-1)) ((3 : Int) - 1),
            playing := false, showAll := false }
        ∧ ∀ i : Int, handleScrub 3 i { index := 1, playing := true, showAll := false } =
            { index := min (max i 0) ((3 : Int) - 1),
              playing := false, showAll := false })
    ∧ ((3 : Nat) = 0 → ∀ op : PlaybackOp,
        applyOp 3 { index := 1, playing := true, showAll := false } op =
          { index := 1, playing := true, showAll := false }) :=
  playback_clamp 3 { index := 1, playing := true, showAll := false }
    (by decide) (by decide)

/-- C3 counterexample: on an empty sequence, `stepForward` does not cancel
playing (the handler is an early-return no-op), contrary to the claim's
unconditional "cancels playing". -/
theorem playback_stepForward_not_cancel :
    (handleStepForward 0 { index := -1, playing := true, showAll := false }).playing ≠ false := by
  decide

/-- C4 (amended): when the filtered sequence becomes empty the effect
forces index `-1` and stops playing; when it is non-empty the resulting
index always lands in `[0, length-1]`, an index already in `[0, length-1]`
is unchanged, a negative index (including `-1`) is reset to `length-1`,
an overflowing index is clamped to `length-1`, and playing and show-all
are untouched. -/
theorem playback_shrink_clamp (len : Nat) (s : PlaybackState) :
    (len = 0 → clampIndexEffect len s = { s with index := -1, playing := false })
    ∧ (0 < len →
        (0 ≤ (clampIndexEffect len s).index ∧
          (clampIndexEffect len s).index ≤ (len : Int) - 1)
        ∧ (0 ≤ s.index → s.index ≤ (len : Int) - 1 →
            (clampIndexEffect len s).index = s.index)
        ∧ (s.index < 0 → (clampIndexEffect len s).index = (len : Int) - 1)
        ∧ ((len : Int) - 1 < s.index → (clampIndexEffect len s).index = (len : Int) - 1)
        ∧ (clampIndexEffect len s).playing = s.playing
        ∧ (clampIndexEffect len s).showAll = s.showAll) := by
  constructor
  · intro hlen
    rw [clampIndexEffect, if_pos hlen]
  · intro hlen
    have hne : ¬ len = 0 := Nat.pos_iff_ne_zero.mp hlen
    rw [clampIndexEffect, if_neg hne]
    dsimp only
    by_cases hs : s.index < 0
    · rw [if_pos hs]
      refine ⟨⟨by omega, by omega⟩, ?_, fun _ => rfl, fun _ => rfl, rfl, rfl⟩
      intro hge _
      omega
    · rw [if_neg hs]
      refine ⟨?_, ?_, fun hc => absurd hc hs, ?_, rfl, rfl⟩
      · constructor
        · rw [min_def]
          split_ifs <;> omega
        · rw [min_def]
          split_ifs <;> omega
      · intro hge hle
        rw [min_eq_left hle]
      · intro hover
        rw [min_eq_right]
        omega

/-- C4 counterexample: with a non-empty sequence (`length = 2`) an index
of `-1` does not stay `-1`: the effect resets it to `length-1 = 1`. -/
theorem playback_shrink_cex :
    (clampIndexEffect 2 { index := -1, playing := false, showAll := false }).index = 1 ∧
      (1 : Int) ≠ -1 := by decide

/-! ## Metrics (claim C5) -/

theorem countP_disjoint {α : Type} (p q : α → Bool)
    (hpq : ∀ a, p a = true → q a = false) (l : List α) :
    l.countP p + l.countP q = l.countP (fun a => p a || q a) := by
  induction l with
  | nil => rfl
  | cons x xs ih =>
    cases hp : p x
    · cases hq : q x <;> (simp [List.countP_cons, hp, hq, ← ih]; try omega)
    · have hqf : q x = false := hpq x hp
      simp [List.countP_cons, hp, hqf, ← ih]
      omega

theorem violationsFlagged_eq_filter (evs : List TimelineEvent) :
    violationsFlagged evs =
      (evs.filter (fun e =>
        verdictString e == some "warn" || verdictString e == some "block")).length := by
  rw [violationsFlagged, warnCount, blockCount, countP_disjoint _ _ ?_,
    List.countP_eq_length_filter]
  intro a ha
  rw [beq_iff_eq] at ha
  rw [ha]
  decide

/-- C5: the judge-agreement metric is "pending" exactly when the window
holds zero verdict events, and otherwise equals
`round(100 * (allowCount + 0.4 * warnCount) / totalVerdictCount)` percent;
the violations-flagged metric counts the warn-plus-block verdicts of the
window.  On the example window {allow, allow, warn, block} this yields
60% and 2. -/
theorem metrics_spec (evs : List TimelineEvent) :
    (judgeAgreement evs = .pending ↔ totalVerdictCount evs = 0)
    ∧ (totalVerdictCount evs ≠ 0 →
        judgeAgreement evs = .percent (jsRound
          (100 * ((allowCount evs : ℚ) + (2 / 5) * (warnCount evs : ℚ)) /
            (totalVerdictCount evs : ℚ))))
    ∧ violationsFlagged evs =
        (evs.filter (fun e =>
          verdictString e == some "warn" || verdictString e == some "block")).length
    ∧ judgeAgreement metricsExampleWindow = .percent 60
    ∧ violationsFlagged metricsExampleWindow = 2 := by
  refine ⟨?_, ?_, violationsFlagged_eq_filter evs, ?_, by decide⟩
  · constructor
    · intro h
      by_contra hne
      rw [judgeAgreement, if_neg hne] at h
      exact JudgeAgreement.noConfusion h
    · intro h
      rw [judgeAgreement, if_pos h]
  · intro hne
    rw [judgeAgreement, if_neg hne]
    congr 2
    ring
  · have ha : allowCount metricsExampleWindow = 2 := by decide
    have hw : warnCount metricsExampleWindow = 1 := by decide
    have ht : totalVerdictCount metricsExampleWindow = 4 := by decide
    simp only [judgeAgreement, ha, hw, ht]
    norm_num [jsRound]

/-! ## Filters (claim C6) -/

theorem passesFilters_iff (qSel vSel : List String) (events : List TimelineEvent)
    (e : TimelineEvent) :
    passesFilters qSel vSel events e = true ↔
      exchangePassesSpec qSel vSel events e.exchangeId := by
  unfold passesFilters exchangePassesSpec
  cases hqc : exchangeQuestionCategory events e.exchangeId with
  | none => simp [hqc, List.isEmpty_iff, List.any_eq_true]
  | some c => simp [hqc, List.isEmpty_iff, List.any_eq_true]

/-- C6: with the category facet of an exchange being its (last) response's
category — "Uncategorized" when that response carries none — and its
violation facet the categories of its verdicts, the filtered sequence
keeps an event exactly when the event is in the input and its owning
exchange passes the spec's filter predicate (category selected or no
category filter; some violation category selected or no violation
filter), whether or not the event itself carries facet data. -/
theorem filter_intersection_spec (qSel vSel : List String)
    (events : List TimelineEvent) :
    ∀ e, e ∈ filteredEvents qSel vSel events ↔
      e ∈ events ∧ exchangePassesSpec qSel vSel events e.exchangeId := by
  intro e
  rw [filteredEvents]
  by_cases hb : (qSel.isEmpty && vSel.isEmpty) = true
  · rw [if_pos hb]
    rw [Bool.and_eq_true] at hb
    have hq : qSel = [] := List.isEmpty_iff.mp hb.1
    have hv : vSel = [] := List.isEmpty_iff.mp hb.2
    constructor
    · intro h
      exact ⟨h, Or.inl hq, Or.inl hv⟩
    · exact fun h => h.1
  · rw [if_neg hb, List.mem_filter]
    exact and_congr_right (fun _ => passesFilters_iff qSel vSel events e)

/-! ## Reveal gate (claim C8) -/

/-- C8: a reveal request is rejected locally — no audit call, disclosed
stays false — with the "unavailable" error when no audit collaborator is
configured, the "disabled" error on a demo/non-live run, and one of the
two "not ready" errors when there is no raw value to disclose; the audit
call is issued exactly when all three preconditions hold, and the field
is disclosed exactly when the audit call was issued and succeeded. -/
theorem reveal_gate_spec (cfg allowed : Bool) (rp : Option LLMResponsePayload)
    (ok : Bool) :
    (cfg = false →
      handleRevealResponse cfg allowed rp ok =
        { auditCalled := false, disclosed := false,
          error := some "Reveal logging unavailable." })
    ∧ (cfg = true → allowed = false →
      handleRevealResponse cfg allowed rp ok =
        { auditCalled := false, disclosed := false,
          error := some "Reveals disabled in demo mode." })
    ∧ (cfg = true → allowed = true →
        (rp = none ∨ ∃ p, rp = some p ∧ p.piiRawText.getD "" = "") →
        (handleRevealResponse cfg allowed rp ok).auditCalled = false
        ∧ (handleRevealResponse cfg allowed rp ok).disclosed = false
        ∧ ((handleRevealResponse cfg allowed rp ok).error =
              some "Model response not available yet."
          ∨ (handleRevealResponse cfg allowed rp ok).error =
              some "Full response not available."))
    ∧ ((handleRevealResponse cfg allowed rp ok).auditCalled = true ↔
        cfg = true ∧ allowed = true ∧
          ∃ p, rp = some p ∧ ¬ p.piiRawText.getD "" = "")
    ∧ ((handleRevealResponse cfg allowed rp ok).disclosed = true ↔
        (handleRevealResponse cfg allowed rp ok).auditCalled = true ∧ ok = true) := by
  cases rp with
  | none => cases cfg <;> cases allowed <;> cases ok <;> simp [handleRevealResponse]
  | some p =>
    by_cases hp : p.piiRawText.getD "" = "" <;>
      cases cfg <;> cases allowed <;> cases ok <;> simp [handleRevealResponse, hp]

/-! ## Live-stream buffer (claim C9) -/

theorem streamKeyMatches_iff (a b : TimelineEvent) :
    streamKeyMatches a b = true ↔ eventKey a = eventKey b := by
  simp only [streamKeyMatches, eventKey, Bool.and_eq_true, beq_iff_eq, Prod.mk.injEq]
  constructor
  · rintro ⟨⟨h1, h2⟩, h3⟩
    exact ⟨h2, h1, h3⟩
  · rintro ⟨h1, h2, h3⟩
    exact ⟨⟨h2, h1⟩, h3⟩

theorem streamStep_preserves (prev : List TimelineEvent) (e : TimelineEvent)
    (hlen : prev.length ≤ 500)
    (hpw : prev.Pairwise (fun a b => eventKey a ≠ eventKey b)) :
    (streamStep prev e).length ≤ 500 ∧
      (streamStep prev e).Pairwise (fun a b => eventKey a ≠ eventKey b) := by
  by_cases hdup : prev.any (fun existing => streamKeyMatches existing e) = true
  · rw [streamStep, if_pos hdup]
    exact ⟨hlen, hpw⟩
  · rw [streamStep, if_neg hdup]
    have hnotin : ∀ x ∈ prev, eventKey x ≠ eventKey e := by
      intro x hx hc
      exact hdup (List.any_eq_true.mpr ⟨x, hx, (streamKeyMatches_iff x e).mpr hc⟩)
    have hpw2 : (prev ++ [e]).Pairwise (fun a b => eventKey a ≠ eventKey b) := by
      rw [List.pairwise_append]
      refine ⟨hpw, List.pairwise_singleton _ _, ?_⟩
      intro a ha b hb
      rw [List.mem_singleton] at hb
      exact hb ▸ hnotin a ha
    dsimp only
    by_cases hover : 500 < (prev ++ [e]).length
    · rw [if_pos hover]
      constructor
      · rw [List.length_drop]
        omega
      · exact List.Pairwise.sublist (List.drop_sublist _ _) hpw2
    · rw [if_neg hover]
      constructor
      · omega
      · exact hpw2

/-- C9: after any sequence of stream deliveries, the accumulated live
buffer holds at most 500 events with pairwise-distinct
`(event_type, exchange_id, created_at)` keys; when a (non-duplicate)
append would exceed 500, the handler keeps exactly the most recent 500 —
a suffix of the appended buffer of length 500, dropping the oldest. -/
theorem stream_buffer_spec (deliveries : List TimelineEvent) :
    ((streamBuffer deliveries).length ≤ 500
      ∧ (streamBuffer deliveries).Pairwise (fun a b => eventKey a ≠ eventKey b))
    ∧ (∀ prev e, prev.any (fun existing => streamKeyMatches existing e) = false →
        500 < (prev ++ [e]).length →
          streamStep prev e = (prev ++ [e]).drop ((prev ++ [e]).length - 500)
          ∧ (streamStep prev e).length = 500
          ∧ List.IsSuffix (streamStep prev e) (prev ++ [e])) := by
  constructor
  · have hgen : ∀ (ds acc : List TimelineEvent), acc.length ≤ 500 →
        acc.Pairwise (fun a b => eventKey a ≠ eventKey b) →
        (ds.foldl streamStep acc).length ≤ 500 ∧
          (ds.foldl streamStep acc).Pairwise (fun a b => eventKey a ≠ eventKey b) := by
      intro ds
      induction ds with
      | nil => exact fun acc h1 h2 => ⟨h1, h2⟩
      | cons d rest ih =>
        intro acc h1 h2
        rw [List.foldl_cons]
        rcases streamStep_preserves acc d h1 h2 with ⟨g1, g2⟩
        exact ih _ g1 g2
    exact hgen deliveries [] (by simp) (by simp)
  · intro prev e hdup hover
    have hstep : streamStep prev e =
        (prev ++ [e]).drop ((prev ++ [e]).length - 500) := by
      rw [streamStep, if_neg (by rw [hdup]; exact Bool.false_ne_true)]
      dsimp only
      rw [if_pos hover]
    refine ⟨hstep, ?_, ?_⟩
    · rw [hstep, List.length_drop]
      omega
    · rw [hstep]
      exact List.drop_suffix _ _

/-! ## Event source adapter (claim C10) -/

/-- C10: the adapter's normalization only ever emits `judge_verdict` or
`llm_response` events: a raw `event_type` of `judge_verdict` yields a
verdict-shaped payload, and any other raw type — `user_prompt`,
`metric_snapshot`, `audit_record`, anything unknown, or a missing type —
is coerced to `llm_response` with a response-shaped payload, so no
prompt, metric-snapshot or audit event kind ever reaches the grouper or
metrics layer. -/
theorem adapter_spec (now : Nat) (raw : RawEvent) :
    ((toTimelineEvent now raw).eventType = EventKind.judgeVerdict
      ∨ (toTimelineEvent now raw).eventType = EventKind.llmResponse)
    ∧ (raw.eventType = some "judge_verdict" →
        ∃ p, (toTimelineEvent now raw).payload = EventPayload.judgeVerdict p)
    ∧ (raw.eventType ≠ some "judge_verdict" →
        (toTimelineEvent now raw).eventType = EventKind.llmResponse
        ∧ ∃ p, (toTimelineEvent now raw).payload = EventPayload.llmResponse p)
    ∧ (toTimelineEvent now raw).eventType ≠ EventKind.userPrompt
    ∧ (toTimelineEvent now raw).eventType ≠ EventKind.metricSnapshot
    ∧ (toTimelineEvent now raw).eventType ≠ EventKind.auditRecord := by
  cases hre : raw.eventType with
  | none =>
    have hne : ¬ (("audit_record" : String) = "judge_verdict") := by decide
    simp [toTimelineEvent, hre, hne, TimelineEvent.eventType, EventPayload.kind]
  | some s =>
    by_cases hs : s = "judge_verdict" <;>
      simp [toTimelineEvent, hre, hs, TimelineEvent.eventType, EventPayload.kind]

end CamAgent
